import Mathlib

/-!
# Verification of `affine_bs.py`

A shallow embedding of the affine digraph-substitution key-recovery tool
`affine_bs.py`, together with proofs about its modular-arithmetic
utilities, digraph frequency analysis, key derivation, decryption and
candidate search.

Embedding conventions:
* Python integers are `Int`; Python `//` and `%` (floored) are `Int.fdiv`
  and `Int.fmod`.
* Texts are `List Char`, digraphs (2-symbol blocks) are `Char × Char`.
* Functions that can return Python `None` return `Option _`; code paths
  that would raise an exception are embedded as `none` as well, with a
  comment at each such spot.
* The `while` loop of the extended Euclid routine is embedded with a
  structural fuel argument; every call supplies fuel larger than the
  number of iterations the loop can perform, so the fuel-exhausted branch
  is unreachable (it returns the same accumulator the loop exit returns).
* The congruence solver's reduced branch divides `a`, `b`, `m` by
  `d = gcd(a, m)` with Python's real-valued `/`, a correctly rounded
  float division: although `d` divides all three exactly (the branch
  requires `b % d == 0`), the integer quotient is rounded to 53 bits of
  mantissa once its magnitude exceeds `2^53`, and raises `OverflowError`
  near `1.8e308`.  This embedding follows the design notes of the
  specification (exact reduction by the gcd, "flagged as a latent
  correctness risk in the original, not to be preserved") and models the
  division as exact integer division `Int.fdiv`.  The two semantics
  coincide on every call this program makes (the modulus is always
  `A² = 961` and all operands are below `961` in magnitude); where they
  diverge, the source returns non-solutions or crashes — see
  `C3_float_rounding_failing_input` and `C7_degenerate_at_failing_input`.
-/

namespace AffineBS

/-- The 31-symbol alphabet constant `ALPHABET` of `affine_bs.py`. -/
def ALPHABET : List Char :=
  ['а', 'б', 'в', 'г', 'д', 'е', 'ж', 'з', 'и', 'й', 'к', 'л', 'м', 'н',
   'о', 'п', 'р', 'с', 'т', 'у', 'ф', 'х', 'ц', 'ч', 'ш', 'щ', 'ь', 'ы',
   'э', 'ю', 'я']

/-- `MOST_FREQUENTLY_BIGRAMS` of `affine_bs.py`, as pairs of symbols. -/
def MOST_FREQUENTLY_BIGRAMS : List (Char × Char) :=
  [('с', 'т'), ('н', 'о'), ('т', 'о'), ('н', 'а'), ('е', 'н')]

/-- `len(ALPHABET)`. -/
def alen : Nat := ALPHABET.length

/-- `len(ALPHABET) ** 2`, the modulus of the digraph ring. -/
def Msq : Int := (alen : Int) ^ 2

/-- `ALPHABET.index(c)`.  Python raises `ValueError` when `c` is absent;
this total version returns `ALPHABET.length` there, and callers establish
membership. -/
def idx (c : Char) : Nat := ALPHABET.indexOf c

/-- The digraph-to-integer encoding
`ALPHABET.index(g[0]) * len(ALPHABET) + ALPHABET.index(g[1])` that appears
in `get_key1`, `get_key2` and `decrypt_from_affinity_sub`. -/
def digraphVal (g : Char × Char) : Int := (idx g.1 : Int) * (alen : Int) + (idx g.2 : Int)

/-! ## Digraph frequency table (`get_bigrams_frequency`) -/

/-- One dictionary update of `get_bigrams_frequency`: bump the count of
key `k`, preserving insertion order as Python dicts do. -/
def bumpKey (k : Char × Char) : List ((Char × Char) × Nat) → List ((Char × Char) × Nat)
  | [] => [(k, 1)]
  | (k2, c) :: rest => if k2 = k then (k2, c + 1) :: rest else (k2, c) :: bumpKey k rest

/-- The index sequence `range(0, len(string) - 1, step)` of
`get_bigrams_frequency` (for `step > 0`, as every caller uses). -/
def bigramIndices (s : List Char) (step : Nat) : List Nat :=
  List.range' 0 ((s.length - 1 + step - 1) / step) step

/-- The loop of `get_bigrams_frequency`: the frequency dictionary
`f_dict`, insertion-ordered (returned directly when `sort=False`). -/
def get_bigrams_frequency_dict (s : List Char) (step : Nat) : List ((Char × Char) × Nat) :=
  (bigramIndices s step).foldl (fun d i => bumpKey (s.getD i 'а', s.getD (i + 1) 'а') d) []

/-- `(c1, c2) < (d1, d2)` as Python compares the 2-character strings
`c1 + c2` and `d1 + d2`: lexicographically by code point. -/
def bigramLt (g h : Char × Char) : Prop := g.1 < h.1 ∨ (g.1 = h.1 ∧ g.2 < h.2)

instance : DecidableRel bigramLt := fun g h => by
  unfold bigramLt; infer_instance

/-- The descending order of `sorted(f_dict.items(), key=lambda x: (x[1], x[0]),
reverse=True)`: `x` comes no later than `y` iff the Python sort key
`(count, digraph)` of `x` is at least that of `y`. -/
def freqGE (x y : (Char × Char) × Nat) : Prop :=
  y.2 < x.2 ∨ (x.2 = y.2 ∧ (bigramLt y.1 x.1 ∨ y.1 = x.1))

instance : DecidableRel freqGE := fun x y => by
  unfold freqGE; infer_instance

instance : IsTotal ((Char × Char) × Nat) freqGE where
  total x y := by
    have htri : ∀ a b : Char × Char, bigramLt a b ∨ a = b ∨ bigramLt b a := by
      intro a b
      rcases lt_trichotomy a.1 b.1 with h1 | h1 | h1
      · exact Or.inl (Or.inl h1)
      · rcases lt_trichotomy a.2 b.2 with h2 | h2 | h2
        · exact Or.inl (Or.inr ⟨h1, h2⟩)
        · exact Or.inr (Or.inl (Prod.ext h1 h2))
        · exact Or.inr (Or.inr (Or.inr ⟨h1.symm, h2⟩))
      · exact Or.inr (Or.inr (Or.inl h1))
    rcases Nat.lt_trichotomy x.2 y.2 with h | h | h
    · exact Or.inr (Or.inl h)
    · rcases htri x.1 y.1 with h1 | h1 | h1
      · exact Or.inr (Or.inr ⟨h.symm, Or.inl h1⟩)
      · exact Or.inl (Or.inr ⟨h, Or.inr h1.symm⟩)
      · exact Or.inl (Or.inr ⟨h, Or.inl h1⟩)
    · exact Or.inl (Or.inl h)

instance : IsTrans ((Char × Char) × Nat) freqGE where
  trans x y z hxy hyz := by
    have htrans : ∀ a b c : Char × Char, bigramLt a b → bigramLt b c → bigramLt a c := by
      intro a b c h1 h2
      rcases h1 with h1 | ⟨e1, h1⟩
      · rcases h2 with h2 | ⟨e2, _⟩
        · exact Or.inl (h1.trans h2)
        · exact Or.inl (e2 ▸ h1)
      · rcases h2 with h2 | ⟨e2, h2⟩
        · exact Or.inl (e1 ▸ h2)
        · exact Or.inr ⟨e1.trans e2, h1.trans h2⟩
    rcases hxy with h | ⟨he, h⟩
    · rcases hyz with h2 | ⟨he2, _⟩
      · exact Or.inl (h2.trans h)
      · exact Or.inl (he2 ▸ h)
    · rcases hyz with h2 | ⟨he2, h2⟩
      · exact Or.inl (he.symm ▸ h2)
      · refine Or.inr ⟨he.trans he2, ?_⟩
        rcases h with h | h
        · rcases h2 with h2 | h2
          · exact Or.inl (htrans _ _ _ h2 h)
          · exact Or.inl (h2 ▸ h)
        · rcases h2 with h2 | h2
          · exact Or.inl (h ▸ h2)
          · exact Or.inr (h2.trans h)

/-- `get_bigrams_frequency(string, step, sort=True)`: the frequency
dictionary ranked by Python's stable sort, descending on the key
`(count, digraph)`.  Python's stable `sorted` is embedded by insertion
sort, which is stable for the same order (and the dictionary's keys are
distinct, so any correct sort produces this list). -/
def get_bigrams_frequency (s : List Char) (step : Nat) : List ((Char × Char) × Nat) :=
  List.insertionSort freqGE (get_bigrams_frequency_dict s step)

/-! ## Extended Euclid (`gcd`), modular inverse (`get_inverse`) -/

/-- The `while n:` loop of `gcd` in `affine_bs.py`, carrying `(b, n, x0, x1)`
with structural fuel.  Fuel exhaustion returns the loop accumulator
exactly like the loop exit; callers supply fuel `> n.toNat`, which the
loop never exhausts because its second argument, once nonnegative,
strictly decreases. -/
def gcdLoop : Nat → Int → Int → Int → Int → Int × Int
  | 0, b, _, x0, _ => (b, x0)
  | fuel + 1, b, n, x0, x1 =>
    if n = 0 then (b, x0)
    else gcdLoop fuel n (Int.fmod b n) x1 (x0 - Int.fdiv b n * x1)

/-- `gcd(b, n)` of `affine_bs.py`: the iterative extended Euclidean
algorithm, returning the final `b` (the gcd, for `n > 0`) and the Bézout
coefficient `x` with `b·x ≡ gcd (mod n)`. -/
def gcd (b n : Int) : Int × Int := gcdLoop (n.toNat + 1) b n 1 0

/-- `get_inverse(a, b)` of `affine_bs.py`: `(d, x % b)` when `d == 1`,
else `(d, None)`. -/
def get_inverse (a b : Int) : Int × Option Int :=
  let r := gcd a b
  if r.1 = 1 then (r.1, some (Int.fmod r.2 b)) else (r.1, none)

/-! ## Linear congruence solver (`solve_linear_comparison`) -/

/-- Python truthiness of the optional integer `a_inv` in
`solve_linear_comparison`: `None` and `0` are falsy. -/
def truthy : Option Int → Bool
  | none => false
  | some v => v != 0

/-- `solve_linear_comparison(a, b, m)` of `affine_bs.py`.  The reduced
branch's real-valued divisions by `d` are modelled as exact integer
division `Int.fdiv`, the behaviour the specification's design notes
require; the source's float division agrees with it exactly as long as
the quotients stay within `2^53` (true of every call in this program,
where `m = A² = 961`), but rounds above that and overflows near
`1.8e308` — the defect exhibited by `C3_float_rounding_failing_input`.
Under the exact semantics `int(x0 + (i - 1) * m)` truncates a value that
already holds an integer, so it is the identity, and the inner
`get_inverse(a, m)[1]` always exists in the reduced branch (the reduced
pair is coprime), so the `getD 0` default is never read. -/
def solve_linear_comparison (a b m : Int) : Option (List Int) :=
  let r := get_inverse a m
  if truthy r.2 then
    some [Int.fmod (r.2.getD 0 * b) m]
  else if Int.fmod b r.1 = 0 then
    let a2 := Int.fdiv a r.1
    let b2 := Int.fdiv b r.1
    let m2 := Int.fdiv m r.1
    let x0 := Int.fmod (b2 * (get_inverse a2 m2).2.getD 0) m2
    some ((List.range' 1 r.1.toNat).map fun (i : Nat) => x0 + ((i : Int) - 1) * m2)
  else
    none

/-! ## Key derivation (`get_key1`, `get_key2`) -/

/-- `get_key1(x1, x2, y1, y2)` of `affine_bs.py`: solve
`(Y1 - Y2)·t ≡ (X1 - X2) (mod A²)` and return the modular inverses of the
solutions that have one. -/
def get_key1 (x1 x2 y1 y2 : Char × Char) : Option (List Int) :=
  let X1 := digraphVal x1
  let X2 := digraphVal x2
  let Y1 := digraphVal y1
  let Y2 := digraphVal y2
  match solve_linear_comparison (Y1 - Y2) (X1 - X2) Msq with
  | none => none
  | some results => some (results.filterMap fun i => (get_inverse i Msq).2)

/-- `get_key2(x1, y1, a)` of `affine_bs.py`: `(Y - a·X) % A²`. -/
def get_key2 (x1 y1 : Char × Char) (a : Int) : Int :=
  Int.fmod (digraphVal y1 - a * digraphVal x1) Msq

/-! ## Decryption (`decrypt_from_affinity_sub`) and spec-modelled encryption -/

/-- `decrypt_from_affinity_sub(string, key)` of `affine_bs.py`, two symbols
per iteration.  A one-symbol tail is Python's `IndexError` on
`string[i + 1]` and a non-invertible `key[0]` is Python's `TypeError` on
`None * int`; both are embedded as `none`. -/
def decrypt_from_affinity_sub : List Char → Int × Int → Option (List Char)
  | [], _ => some []
  | [_], _ => none
  | c1 :: c2 :: rest, key =>
    match (get_inverse key.1 Msq).2 with
    | none => none
    | some inv =>
      let y := digraphVal (c1, c2)
      let x := Int.fmod (inv * (y - key.2)) Msq
      match decrypt_from_affinity_sub rest key with
      | none => none
      | some tl =>
        some (ALPHABET.getD (x.toNat / alen) 'а' :: ALPHABET.getD (x.toNat % alen) 'а' :: tl)

/-- Modelled from the spec: the repository ships no encryption routine
(only `decrypt_from_affinity_sub`), so the glossary's digraph affine
encryption of one block — map the 2-symbol block to `X ∈ [0, A²)`,
compute `Y = (a·X + b) mod A²`, re-expand `Y` into two symbols — is
modelled here. -/
def encryptBigram (key : Int × Int) (g : Char × Char) : Char × Char :=
  let y := (key.1 * digraphVal g + key.2) % Msq
  (ALPHABET.getD (y.toNat / alen) 'а', ALPHABET.getD (y.toNat % alen) 'а')

/-- Modelled from the spec: blockwise digraph affine encryption of a text
of even length (each non-overlapping 2-symbol block is encrypted by
`encryptBigram`). -/
def encrypt_affinity_sub : List Char → Int × Int → List Char
  | [], _ => []
  | [c], _ => [c]
  | c1 :: c2 :: rest, key =>
    (encryptBigram key (c1, c2)).1 :: (encryptBigram key (c1, c2)).2 ::
      encrypt_affinity_sub rest key

/-! ## Candidate search (`gnc_keys`, with `check_bw=False`)

The plausibility test `check_text_correctness` computes Shannon entropies
with floating-point `log2` and compares them to `4.5` and `4.2`; it is a
pure function of the decrypted text, taken here as a parameter
`check : List Char → Bool`.  Everything proved about the search holds for
every such check, in particular for the source's entropic one. -/

/-- `itertools.permutations(MOST_FREQUENTLY_BIGRAMS, 2)`: ordered pairs of
entries at distinct positions, in index-lexicographic order. -/
def perms2 (l : List (Char × Char)) : List ((Char × Char) × (Char × Char)) :=
  (List.range l.length).flatMap fun i =>
    (List.range l.length).filterMap fun j =>
      if i = j then none else some (l.getD i ('а', 'а'), l.getD j ('а', 'а'))

/-- The innermost loop of `gnc_keys`: `for solution in key_1`, building the
key, decrypting and testing.  A decryption failure is a Python crash
(embedded `none`, aborting the run); it is unreachable because every
`get_key1` output is invertible. -/
def gnc_inner (check : List Char → Bool) (s : List Char)
    (x1 : Char × Char) (c1 : Char × Char) :
    List Int → Option ((Int × Int) × List Char)
  | [] => none
  | a :: rest =>
    let key := (a, get_key2 x1 c1 a)
    match decrypt_from_affinity_sub s key with
    | none => none
    | some d_text =>
      if check d_text then some (key, d_text)
      else gnc_inner check s x1 c1 rest

/-- The middle loop of `gnc_keys`: `for j in range(len(f_list) - 1)`,
pairing adjacent entries of the truncated frequency table. -/
def gnc_middle (check : List Char → Bool) (s : List Char)
    (f_list : List ((Char × Char) × Nat)) (p : (Char × Char) × (Char × Char)) :
    List Nat → Option ((Int × Int) × List Char)
  | [] => none
  | j :: rest =>
    match get_key1 p.1 p.2 (f_list.getD j (('а', 'а'), 0)).1
        (f_list.getD (j + 1) (('а', 'а'), 0)).1 with
    | none => gnc_middle check s f_list p rest
    | some sols =>
      match gnc_inner check s p.1 (f_list.getD j (('а', 'а'), 0)).1 sols with
      | some r => some r
      | none => gnc_middle check s f_list p rest

/-- The outer loop of `gnc_keys`:
`for i in permutations(MOST_FREQUENTLY_BIGRAMS, 2)`. -/
def gnc_outer (check : List Char → Bool) (s : List Char)
    (f_list : List ((Char × Char) × Nat)) :
    List ((Char × Char) × (Char × Char)) → Option ((Int × Int) × List Char)
  | [] => none
  | p :: rest =>
    match gnc_middle check s f_list p (List.range (f_list.length - 1)) with
    | some r => some r
    | none => gnc_outer check s f_list rest

/-- `gnc_keys(string, f_size)` of `affine_bs.py` on the `check_bw=False`
path: the first key whose decryption passes `check`, together with the
decrypted text, or `none` when the search is exhausted. -/
def gnc_keys (check : List Char → Bool) (s : List Char) (f_size : Nat) :
    Option ((Int × Int) × List Char) :=
  let f_list := (get_bigrams_frequency s 1).take f_size
  gnc_outer check s f_list (perms2 MOST_FREQUENTLY_BIGRAMS)

/-- The candidate keys `gnc_keys` generates, flattened in its exact
enumeration order: reference-digraph permutations outermost, adjacent
frequency-table index pairs next, congruence-solver candidates
innermost. -/
def gnc_candidates (s : List Char) (f_size : Nat) : List (Int × Int) :=
  let f_list := (get_bigrams_frequency s 1).take f_size
  (perms2 MOST_FREQUENTLY_BIGRAMS).flatMap fun p =>
    (List.range (f_list.length - 1)).flatMap fun j =>
      match get_key1 p.1 p.2 (f_list.getD j (('а', 'а'), 0)).1
          (f_list.getD (j + 1) (('а', 'а'), 0)).1 with
      | none => []
      | some sols => sols.map fun a => (a, get_key2 p.1 (f_list.getD j (('а', 'а'), 0)).1 a)

/-- The body of the innermost loop of `gnc_keys`, applied to one candidate
key: decrypt, test, and either emit or move on. -/
def gnc_try (check : List Char → Bool) (s : List Char) (k : Int × Int) :
    Option ((Int × Int) × List Char) :=
  match decrypt_from_affinity_sub s k with
  | none => none
  | some t => if check t then some (k, t) else none

/-- The strict order the ranked table actually satisfies: counts strictly
descending, and digraph keys strictly descending among equal counts. -/
def freqOrderDesc (x y : (Char × Char) × Nat) : Prop :=
  y.2 < x.2 ∨ (x.2 = y.2 ∧ bigramLt y.1 x.1)

/-- The order claimed by the specification: counts descending, digraph
keys ascending among equal counts. -/
def freqOrderSpec (x y : (Char × Char) × Nat) : Prop :=
  y.2 < x.2 ∨ (x.2 = y.2 ∧ bigramLt x.1 y.1)

instance : DecidableRel freqOrderDesc := fun x y => by
  unfold freqOrderDesc; infer_instance

instance : DecidableRel freqOrderSpec := fun x y => by
  unfold freqOrderSpec; infer_instance

/-! ## Properties of the extended Euclid loop -/

theorem gcdLoop_zero (fuel : Nat) (b x0 x1 : Int) :
    gcdLoop fuel b 0 x0 x1 = (b, x0) := by
  cases fuel <;> simp [gcdLoop]

/-- A helper: `Int.gcd` absorbs one Euclid step with a positive modulus. -/
theorem int_gcd_fmod (b n : Int) (hn : 0 < n) :
    Int.gcd n (Int.fmod b n) = Int.gcd b n := by
  rw [Int.fmod_eq_emod _ hn.le]
  apply Nat.dvd_antisymm
  · rw [← Int.natCast_dvd_natCast]
    apply Int.dvd_gcd
    · calc (Int.gcd n (b % n) : Int) ∣ n * (b / n) + b % n :=
            Dvd.dvd.add (Dvd.dvd.mul_right Int.gcd_dvd_left _) Int.gcd_dvd_right
        _ = b := Int.ediv_add_emod b n
    · exact Int.gcd_dvd_left
  · rw [← Int.natCast_dvd_natCast]
    apply Int.dvd_gcd
    · exact Int.gcd_dvd_right
    · have : b % n = b - n * (b / n) := Int.emod_def b n
      rw [this]
      exact Dvd.dvd.sub Int.gcd_dvd_left (Dvd.dvd.mul_right Int.gcd_dvd_right _)

/-- The first component of the loop result is the gcd (positive modulus). -/
theorem gcdLoop_fst (fuel : Nat) :
    ∀ (b n x0 x1 : Int), 0 < n → n.toNat < fuel →
      (gcdLoop fuel b n x0 x1).1 = (Int.gcd b n : Int) := by
  induction fuel with
  | zero => intro b n x0 x1 _ h; omega
  | succ f ih =>
    intro b n x0 x1 hn hfuel
    have hne : n ≠ 0 := hn.ne'
    simp only [gcdLoop, if_neg hne]
    have hr0 : 0 ≤ Int.fmod b n := Int.fmod_nonneg' b hn
    have hrn : Int.fmod b n < n := Int.fmod_lt_of_pos b hn
    rcases eq_or_lt_of_le hr0 with hz | hpos
    · rw [← hz, gcdLoop_zero]
      have hdvd : n ∣ b := by
        have := Int.fmod_eq_emod b hn.le
        exact Int.dvd_of_emod_eq_zero (by omega)
      rw [Int.gcd_eq_right hdvd, Int.natAbs_of_nonneg hn.le]
    · rw [ih n (Int.fmod b n) x1 (x0 - Int.fdiv b n * x1) hpos (by omega),
        int_gcd_fmod b n hn]

/-- Bézout invariant of the loop: both tracked values stay integer
combinations of the original arguments, so the result does too. -/
theorem gcdLoop_bezout (fuel : Nat) :
    ∀ (b n x0 x1 a m : Int), (∃ y, b = a * x0 + m * y) → (∃ y, n = a * x1 + m * y) →
      ∃ y, (gcdLoop fuel b n x0 x1).1 = a * (gcdLoop fuel b n x0 x1).2 + m * y := by
  induction fuel with
  | zero => intro b n x0 x1 a m h1 _; exact h1
  | succ f ih =>
    intro b n x0 x1 a m h1 h2
    by_cases hn : n = 0
    · simpa [gcdLoop, hn] using h1
    · simp only [gcdLoop, if_neg hn]
      obtain ⟨y0, hy0⟩ := h1
      obtain ⟨y1, hy1⟩ := h2
      refine ih n (Int.fmod b n) x1 (x0 - Int.fdiv b n * x1) a m ⟨y1, hy1⟩ ?_
      refine ⟨y0 - Int.fdiv b n * y1, ?_⟩
      rw [Int.fmod_def, hy0, hy1]; ring

/-- Specification of `gcd(a, m)` for a positive modulus: the first
component is `gcd(a, m)` and the second is a Bézout coefficient. -/
theorem gcd_spec (a m : Int) (hm : 0 < m) :
    (gcd a m).1 = (Int.gcd a m : Int) ∧
      ∃ y, (gcd a m).1 = a * (gcd a m).2 + m * y := by
  constructor
  · exact gcdLoop_fst _ a m 1 0 hm (by omega)
  · exact gcdLoop_bezout _ a m 1 0 a m ⟨0, by ring⟩ ⟨1, by ring⟩

/-- `get_inverse` always reports the gcd in its first slot. -/
theorem get_inverse_fst (a m : Int) (hm : 0 < m) :
    (get_inverse a m).1 = (Int.gcd a m : Int) := by
  have h := (gcd_spec a m hm).1
  simp only [get_inverse]
  split <;> simpa using h

/-- `get_inverse` returns `None` exactly when `a` is not invertible. -/
theorem get_inverse_none_iff (a m : Int) (hm : 0 < m) :
    (get_inverse a m).2 = none ↔ Int.gcd a m ≠ 1 := by
  have h := (gcd_spec a m hm).1
  simp only [get_inverse]
  split
  · next hc =>
    rw [h] at hc
    have hg : Int.gcd a m = 1 := by exact_mod_cast hc
    simp [hg]
  · next hc =>
    rw [h] at hc
    have hg : Int.gcd a m ≠ 1 := fun h1 => hc (by rw [h1]; rfl)
    simp [hg]

/-- Any value `get_inverse` returns is a genuine inverse in `[0, m)`. -/
theorem get_inverse_some (a m v : Int) (hm : 0 < m)
    (h : (get_inverse a m).2 = some v) :
    0 ≤ v ∧ v < m ∧ a * v ≡ 1 [ZMOD m] := by
  simp only [get_inverse] at h
  split at h
  · next hc =>
    simp only [Option.some.injEq] at h
    subst h
    refine ⟨Int.fmod_nonneg' _ hm, Int.fmod_lt_of_pos _ hm, ?_⟩
    obtain ⟨y, hy⟩ := (gcd_spec a m hm).2
    rw [hc] at hy
    have h1 : a * (gcd a m).2 ≡ 1 [ZMOD m] := by
      have he : a * (gcd a m).2 = 1 - m * y := by linarith
      calc a * (gcd a m).2 = 1 - m * y := he
        _ ≡ 1 - 0 [ZMOD m] :=
            Int.ModEq.sub (Int.ModEq.refl 1) (Int.modEq_zero_iff_dvd.mpr ⟨y, rfl⟩)
        _ = 1 := by ring
    calc a * Int.fmod (gcd a m).2 m
        ≡ a * (gcd a m).2 [ZMOD m] := by
          rw [Int.fmod_eq_emod _ hm.le]
          exact Int.ModEq.mul_left a (Int.mod_modEq _ _)
      _ ≡ 1 [ZMOD m] := h1
  · simp at h

/-- When `a` is invertible mod `m`, `get_inverse` does return a value. -/
theorem get_inverse_isSome (a m : Int) (hm : 0 < m) (h : Int.gcd a m = 1) :
    ∃ v, (get_inverse a m).2 = some v := by
  have h1 := (gcd_spec a m hm).1
  rw [h] at h1
  simp only [get_inverse]
  rw [if_pos (by exact_mod_cast h1)]
  exact ⟨_, rfl⟩

/-- If `a·v ≡ 1 (mod m)` then `v` is itself coprime to `m`. -/
theorem gcd_eq_one_of_mul_modEq_one {a v m : Int} (h : a * v ≡ 1 [ZMOD m]) :
    Int.gcd v m = 1 := by
  have hd : m ∣ 1 - a * v := (Int.modEq_iff_dvd.mp h)
  obtain ⟨k, hk⟩ := hd
  have h1 : (Int.gcd v m : Int) ∣ 1 := by
    have hv : (Int.gcd v m : Int) ∣ a * v := Dvd.dvd.mul_left Int.gcd_dvd_left a
    have hmk : (Int.gcd v m : Int) ∣ m * k := Dvd.dvd.mul_right Int.gcd_dvd_right k
    have : (1 : Int) = a * v + m * k := by linarith
    rw [this]
    exact Dvd.dvd.add hv hmk
  have := Int.eq_one_of_dvd_one (by positivity) h1
  exact_mod_cast this

/-! ## Properties of the congruence solver -/

/-- Congruent values in `[0, m)` are equal. -/
theorem modEq_eq_of_lt {x y m : Int} (h : x ≡ y [ZMOD m]) (hx0 : 0 ≤ x)
    (hxm : x < m) (hy0 : 0 ≤ y) (hym : y < m) : x = y := by
  have h1 : x % m = y % m := h
  rwa [Int.emod_eq_of_lt hx0 hxm, Int.emod_eq_of_lt hy0 hym] at h1

/-- The truthiness of `a_inv` in `solve_linear_comparison`: truthy exactly
when `a` is invertible and the modulus exceeds `1` (mod `1` the inverse is
the falsy `0`). -/
theorem truthy_cases (a m : Int) (hm : 0 < m) :
    (truthy (get_inverse a m).2 = true ∧ Int.gcd a m = 1 ∧ 1 < m) ∨
      (truthy (get_inverse a m).2 = false ∧ (Int.gcd a m ≠ 1 ∨ m = 1)) := by
  rcases hv : (get_inverse a m).2 with _ | v
  · exact Or.inr ⟨rfl, Or.inl ((get_inverse_none_iff a m hm).mp hv)⟩
  · obtain ⟨h0, hlt, hmod⟩ := get_inverse_some a m v hm hv
    have hg : Int.gcd a m = 1 := by
      by_contra hne
      rw [(get_inverse_none_iff a m hm).mpr hne] at hv
      cases hv
    by_cases hz : v = 0
    · subst hz
      refine Or.inr ⟨rfl, Or.inr ?_⟩
      have : m ∣ 1 - a * 0 := Int.modEq_iff_dvd.mp hmod
      simp only [Int.mul_zero, Int.sub_zero] at this
      exact Int.eq_one_of_dvd_one hm.le this
    · left
      refine ⟨by simp [truthy, hz], hg, ?_⟩
      rcases lt_or_le 1 m with h | h
      · exact h
      · exact absurd (by omega) hz

theorem solve_eq_truthy (a b m : Int)
    (h : truthy (get_inverse a m).2 = true) :
    solve_linear_comparison a b m =
      some [Int.fmod ((get_inverse a m).2.getD 0 * b) m] := by
  simp [solve_linear_comparison, h]

theorem solve_eq_reduced (a b m : Int)
    (h : truthy (get_inverse a m).2 = false)
    (h2 : Int.fmod b (get_inverse a m).1 = 0) :
    solve_linear_comparison a b m =
      some ((List.range' 1 (get_inverse a m).1.toNat).map fun (i : Nat) =>
        Int.fmod (Int.fdiv b (get_inverse a m).1 *
            (get_inverse (Int.fdiv a (get_inverse a m).1)
              (Int.fdiv m (get_inverse a m).1)).2.getD 0)
          (Int.fdiv m (get_inverse a m).1) +
        ((i : Int) - 1) * Int.fdiv m (get_inverse a m).1) := by
  simp [solve_linear_comparison, h, h2]

theorem solve_eq_none (a b m : Int)
    (h : truthy (get_inverse a m).2 = false)
    (h2 : Int.fmod b (get_inverse a m).1 ≠ 0) :
    solve_linear_comparison a b m = none := by
  simp [solve_linear_comparison, h, h2]

/-- `(x - y) % m = 0` states the congruence `x ≡ y (mod m)`. -/
theorem sub_emod_eq_zero_iff {x y m : Int} : (x - y) % m = 0 ↔ x ≡ y [ZMOD m] := by
  rw [Int.modEq_iff_dvd, ← dvd_sub_comm]
  exact ⟨Int.dvd_of_emod_eq_zero, Int.emod_eq_zero_of_dvd⟩

/-- Full description of `solve_linear_comparison` for a positive modulus
when `gcd(a, m)` divides `b`: it returns a list of exactly `gcd(a, m)`
solutions, all in `[0, m)`, and containing every solution in `[0, m)`. -/
theorem solve_spec (a b m : Int) (hm : 0 < m)
    (hdvd : (Int.gcd a m : Int) ∣ b) :
    ∃ l, solve_linear_comparison a b m = some l ∧
      l.length = Int.gcd a m ∧
      (∀ x ∈ l, 0 ≤ x ∧ x < m ∧ (a * x - b) % m = 0) ∧
      (∀ x, 0 ≤ x → x < m → (a * x - b) % m = 0 → x ∈ l) := by
  have hr1 : (get_inverse a m).1 = (Int.gcd a m : Int) := get_inverse_fst a m hm
  rcases truthy_cases a m hm with ⟨ht, hg, _⟩ | ⟨ht, hcase⟩
  · -- truthy branch: unique solution `(a_inv * b) % m`
    rcases hv : (get_inverse a m).2 with _ | v
    · rw [hv] at ht; cases ht
    obtain ⟨hv0, hvm, hvinv⟩ := get_inverse_some a m v hm hv
    refine ⟨_, solve_eq_truthy a b m ht, ?_, ?_, ?_⟩
    · simp [hg]
    · intro x hx
      rw [hv] at hx
      simp only [Option.getD_some, List.mem_singleton] at hx
      subst hx
      refine ⟨Int.fmod_nonneg' _ hm, Int.fmod_lt_of_pos _ hm, ?_⟩
      rw [sub_emod_eq_zero_iff]
      calc a * Int.fmod (v * b) m
          ≡ a * (v * b) [ZMOD m] := by
            rw [Int.fmod_eq_emod _ hm.le]
            exact Int.ModEq.mul_left a (Int.mod_modEq _ _)
        _ = a * v * b := by ring
        _ ≡ 1 * b [ZMOD m] := Int.ModEq.mul_right b hvinv
        _ = b := by ring
    · intro x hx0 hxm hsol
      rw [hv]
      simp only [Option.getD_some, List.mem_singleton]
      rw [sub_emod_eq_zero_iff] at hsol
      have hx : x ≡ Int.fmod (v * b) m [ZMOD m] := by
        calc x = 1 * x := by ring
          _ ≡ a * v * x [ZMOD m] := Int.ModEq.mul_right x hvinv.symm
          _ = v * (a * x) := by ring
          _ ≡ v * b [ZMOD m] := Int.ModEq.mul_left v hsol
          _ ≡ Int.fmod (v * b) m [ZMOD m] := by
            rw [Int.fmod_eq_emod _ hm.le]
            exact (Int.mod_modEq _ _).symm
      exact modEq_eq_of_lt hx hx0 hxm (Int.fmod_nonneg' _ hm) (Int.fmod_lt_of_pos _ hm)
  · -- falsy branch: either the degenerate modulus 1, or a proper gcd > 1
    rcases hcase with hne | hm1
    · -- gcd ≠ 1: reduced congruence with gcd(a, m) > 1 solutions
      have hG : (0 : Int) < (Int.gcd a m : Int) := by
        exact_mod_cast Int.gcd_pos_of_ne_zero_right a hm.ne'
      have hfb : Int.fmod b (get_inverse a m).1 = 0 := by
        rw [hr1, Int.fmod_eq_emod _ hG.le]
        exact Int.emod_eq_zero_of_dvd hdvd
      set G : Int := (Int.gcd a m : Int) with hGdef
      have hda : G ∣ a := Int.gcd_dvd_left
      have hdm : G ∣ m := Int.gcd_dvd_right
      set a2 := Int.fdiv a (get_inverse a m).1 with ha2def
      set b2 := Int.fdiv b (get_inverse a m).1 with hb2def
      set m2 := Int.fdiv m (get_inverse a m).1 with hm2def
      have ha2 : G * a2 = a := by
        rw [ha2def, hr1, Int.fdiv_eq_ediv_of_dvd hda, Int.mul_ediv_cancel' hda]
      have hb2 : G * b2 = b := by
        rw [hb2def, hr1, Int.fdiv_eq_ediv_of_dvd hdvd, Int.mul_ediv_cancel' hdvd]
      have hm2 : G * m2 = m := by
        rw [hm2def, hr1, Int.fdiv_eq_ediv_of_dvd hdm, Int.mul_ediv_cancel' hdm]
      have hm2pos : 0 < m2 := by nlinarith
      have hcop : Int.gcd a2 m2 = 1 := by
        have h := Int.gcd_div_gcd_div_gcd (i := a) (j := m)
          (Int.gcd_pos_of_ne_zero_right a hm.ne')
        rw [ha2def, hm2def, hr1, Int.fdiv_eq_ediv_of_dvd hda,
          Int.fdiv_eq_ediv_of_dvd hdm, hGdef]
        exact h
      obtain ⟨v2, hv2⟩ := get_inverse_isSome a2 m2 hm2pos hcop
      obtain ⟨hv20, hv2m, hv2inv⟩ := get_inverse_some a2 m2 v2 hm2pos hv2
      set x0 := Int.fmod (b2 * v2) m2 with hx0def
      have hx00 : 0 ≤ x0 := Int.fmod_nonneg' _ hm2pos
      have hx0m : x0 < m2 := Int.fmod_lt_of_pos _ hm2pos
      have hx0cong : a2 * x0 ≡ b2 [ZMOD m2] := by
        calc a2 * x0 ≡ a2 * (b2 * v2) [ZMOD m2] := by
              rw [hx0def, Int.fmod_eq_emod _ hm2pos.le]
              exact Int.ModEq.mul_left a2 (Int.mod_modEq _ _)
          _ = a2 * v2 * b2 := by ring
          _ ≡ 1 * b2 [ZMOD m2] := Int.ModEq.mul_right b2 hv2inv
          _ = b2 := by ring
      have hlist := solve_eq_reduced a b m ht hfb
      rw [← ha2def, ← hb2def, ← hm2def, hv2] at hlist
      simp only [Option.getD_some, ← hx0def] at hlist
      refine ⟨_, hlist, ?_, ?_, ?_⟩
      · simp only [List.length_map, List.length_range']
        rw [hr1, hGdef]
        exact Int.toNat_natCast _
      · intro x hx
        simp only [List.mem_map, List.mem_range'_1] at hx
        obtain ⟨i, ⟨hi1, hi2⟩, rfl⟩ := hx
        rw [hr1, hGdef] at hi2
        have hiG : (i : Int) ≤ G := by rw [hGdef]; omega
        have hi1' : (1 : Int) ≤ (i : Int) := by exact_mod_cast hi1
        refine ⟨by nlinarith, by nlinarith, ?_⟩
        rw [sub_emod_eq_zero_iff]
        have hstep : a2 * (x0 + ((i : Int) - 1) * m2) ≡ b2 [ZMOD m2] := by
          calc a2 * (x0 + ((i : Int) - 1) * m2)
              = a2 * x0 + a2 * ((i : Int) - 1) * m2 := by ring
            _ ≡ a2 * x0 + 0 [ZMOD m2] :=
                Int.ModEq.add_left _ (Int.modEq_zero_iff_dvd.mpr ⟨a2 * ((i : Int) - 1), by ring⟩)
            _ = a2 * x0 := by ring
            _ ≡ b2 [ZMOD m2] := hx0cong
        have hdvd2 : m2 ∣ a2 * (x0 + ((i : Int) - 1) * m2) - b2 := by
          have := Int.modEq_iff_dvd.mp hstep
          rwa [← dvd_sub_comm] at this
        rw [Int.modEq_iff_dvd, ← dvd_sub_comm]
        have : a * (x0 + ((i : Int) - 1) * m2) - b =
            G * (a2 * (x0 + ((i : Int) - 1) * m2) - b2) := by
          rw [← ha2, ← hb2]; ring
        rw [this, ← hm2]
        exact mul_dvd_mul_left G hdvd2
      · intro x hx0' hxm hsol
        rw [sub_emod_eq_zero_iff, Int.modEq_iff_dvd, ← dvd_sub_comm] at hsol
        have hfact : a * x - b = G * (a2 * x - b2) := by rw [← ha2, ← hb2]; ring
        rw [hfact, ← hm2] at hsol
        have hred : m2 ∣ a2 * x - b2 :=
          (mul_dvd_mul_iff_left (by positivity : G ≠ 0)).mp hsol
        have hxcong : x ≡ x0 [ZMOD m2] := by
          calc x = 1 * x := by ring
            _ ≡ a2 * v2 * x [ZMOD m2] := Int.ModEq.mul_right x hv2inv.symm
            _ = v2 * (a2 * x) := by ring
            _ ≡ v2 * b2 [ZMOD m2] := by
                refine Int.ModEq.mul_left v2 ?_
                rw [Int.modEq_iff_dvd, ← dvd_sub_comm]
                exact hred
            _ = b2 * v2 := by ring
            _ ≡ x0 [ZMOD m2] := by
                rw [hx0def, Int.fmod_eq_emod _ hm2pos.le]
                exact (Int.mod_modEq _ _).symm
        obtain ⟨k, hk⟩ := Int.modEq_iff_dvd.mp hxcong.symm
        have hxk : x = x0 + k * m2 := by linarith [hk, mul_comm m2 k]
        have hk0 : 0 ≤ k := by nlinarith
        have hkG : k < G := by nlinarith
        rw [hGdef] at hkG
        simp only [List.mem_map, List.mem_range'_1]
        refine ⟨k.toNat + 1, ⟨by omega, ?_⟩, ?_⟩
        · rw [hr1, hGdef]; omega
        · have hc : ((k.toNat + 1 : Nat) : Int) - 1 = k := by omega
          rw [hc, ← hxk]
    · -- the modulus is 1: the reduced branch returns the single solution 0
      subst hm1
      have hg1 : Int.gcd a 1 = 1 := Int.gcd_one
      have hfb : Int.fmod b (get_inverse a 1).1 = 0 := by
        rw [hr1, hg1]
        simp
      have hlist := solve_eq_reduced a b 1 ht hfb
      rw [hr1, hg1] at hlist
      simp only [Int.fdiv_one, Nat.cast_one, Int.toNat_one, Int.fmod_one,
        List.range'_one, List.map_cons, List.map_nil] at hlist
      refine ⟨_, hlist, ?_, ?_, ?_⟩
      · simp [hg1]
      · intro x hx
        simp only [List.mem_singleton] at hx
        subst hx
        norm_num
      · intro x hx0 hxm _
        have : x = 0 := by omega
        simp [this]

/-- `solve_linear_comparison` returns `None` exactly in the unsolvable
case `gcd(a, m) ∤ b`. -/
theorem solve_none (a b m : Int) (hm : 0 < m)
    (hnd : ¬ (Int.gcd a m : Int) ∣ b) :
    solve_linear_comparison a b m = none := by
  have hr1 : (get_inverse a m).1 = (Int.gcd a m : Int) := get_inverse_fst a m hm
  rcases truthy_cases a m hm with ⟨_, hg, _⟩ | ⟨ht, _⟩
  · exact absurd (hg ▸ one_dvd b) hnd
  · refine solve_eq_none a b m ht ?_
    rw [hr1]
    intro h
    have hG : (0 : Int) < (Int.gcd a m : Int) := by
      exact_mod_cast Int.gcd_pos_of_ne_zero_right a hm.ne'
    rw [Int.fmod_eq_emod _ hG.le] at h
    exact hnd (Int.dvd_of_emod_eq_zero h)

/-! ## Alphabet and digraph-encoding facts -/

theorem alen_eq : alen = 31 := rfl

theorem Msq_eq : Msq = 961 := by decide

theorem Msq_pos : (0 : Int) < Msq := by decide

theorem alphabet_getD_idx : ∀ c ∈ ALPHABET, ALPHABET.getD (idx c) 'а' = c := by decide

theorem alphabet_idx_lt : ∀ c ∈ ALPHABET, idx c < alen := by decide

theorem alphabet_idx_getD : ∀ k, k < alen → idx (ALPHABET.getD k 'а') = k := by decide

theorem alphabet_getD_mem : ∀ k, k < alen → ALPHABET.getD k 'а' ∈ ALPHABET := by decide

theorem digraphVal_nonneg (g : Char × Char) : 0 ≤ digraphVal g := by
  unfold digraphVal
  positivity

theorem digraphVal_lt (g : Char × Char) (h1 : g.1 ∈ ALPHABET) (h2 : g.2 ∈ ALPHABET) :
    digraphVal g < Msq := by
  have i1 := alphabet_idx_lt g.1 h1
  have i2 := alphabet_idx_lt g.2 h2
  rw [alen_eq] at i1 i2
  unfold digraphVal
  rw [Msq_eq, alen_eq]
  omega

/-- Re-expanding an encoded digraph with in-alphabet symbols recovers the
two symbols. -/
theorem expand_digraphVal (g : Char × Char) (h1 : g.1 ∈ ALPHABET) (h2 : g.2 ∈ ALPHABET) :
    ALPHABET.getD ((digraphVal g).toNat / alen) 'а' = g.1 ∧
      ALPHABET.getD ((digraphVal g).toNat % alen) 'а' = g.2 := by
  have i1 := alphabet_idx_lt g.1 h1
  have i2 := alphabet_idx_lt g.2 h2
  have hv : (digraphVal g).toNat = idx g.1 * alen + idx g.2 := by
    unfold digraphVal
    omega
  have hdiv : (digraphVal g).toNat / alen = idx g.1 := by
    rw [hv, alen_eq] at *
    omega
  have hmod : (digraphVal g).toNat % alen = idx g.2 := by
    rw [hv, alen_eq] at *
    omega
  rw [hdiv, hmod]
  exact ⟨alphabet_getD_idx g.1 h1, alphabet_getD_idx g.2 h2⟩

/-- Encoding the re-expansion of a value in `[0, A²)` gives the value back. -/
theorem digraphVal_expand (y : Int) (h0 : 0 ≤ y) (hm : y < Msq) :
    digraphVal (ALPHABET.getD (y.toNat / alen) 'а', ALPHABET.getD (y.toNat % alen) 'а') = y := by
  have hy : y.toNat < 961 := by
    rw [Msq_eq] at hm
    omega
  have hdl : y.toNat / alen < alen := by
    rw [alen_eq]
    omega
  have hml : y.toNat % alen < alen := by
    rw [alen_eq]
    omega
  unfold digraphVal
  rw [alphabet_idx_getD _ hdl, alphabet_idx_getD _ hml]
  rw [alen_eq] at *
  omega

/-- Two-symbol-block induction on texts, matching the structure of the
block ciphers and of `decrypt_from_affinity_sub`. -/
theorem twoStepInduction {motive : List Char → Prop} (h0 : motive [])
    (h1 : ∀ c, motive [c])
    (h2 : ∀ c1 c2 rest, motive rest → motive (c1 :: c2 :: rest)) :
    ∀ s, motive s
  | [] => h0
  | [c] => h1 c
  | c1 :: c2 :: rest => h2 c1 c2 rest (twoStepInduction h0 h1 h2 rest)

/-! ## Decryption: totality, shape, and the round trip -/

/-- For an invertible key and a well-formed ciphertext (even length, all
symbols in the alphabet), decryption succeeds, preserves length, and
produces only alphabet symbols. -/
theorem decrypt_spec (key : Int × Int) (hgcd : Int.gcd key.1 Msq = 1) :
    ∀ s : List Char, s.length % 2 = 0 → (∀ c ∈ s, c ∈ ALPHABET) →
      ∃ t, decrypt_from_affinity_sub s key = some t ∧ t.length = s.length ∧
        ∀ c ∈ t, c ∈ ALPHABET := by
  obtain ⟨inv, hinv⟩ := get_inverse_isSome key.1 Msq Msq_pos hgcd
  intro s
  induction s using twoStepInduction with
  | h0 => exact fun _ _ => ⟨[], rfl, rfl, by simp⟩
  | h1 c => intro h _; simp at h
  | h2 c1 c2 rest ih =>
    intro hlen halpha
    obtain ⟨t, ht, htlen, htalpha⟩ := ih (by simp at hlen; omega)
      (fun c hc => halpha c (by simp [hc]))
    have heq : decrypt_from_affinity_sub (c1 :: c2 :: rest) key =
        some (ALPHABET.getD
            ((Int.fmod (inv * (digraphVal (c1, c2) - key.2)) Msq).toNat / alen) 'а' ::
          ALPHABET.getD
            ((Int.fmod (inv * (digraphVal (c1, c2) - key.2)) Msq).toNat % alen) 'а' :: t) := by
      simp only [decrypt_from_affinity_sub, hinv, ht]
    refine ⟨_, heq, ?_, ?_⟩
    · simp [htlen]
    · intro c hc
      have hx0 : 0 ≤ Int.fmod (inv * (digraphVal (c1, c2) - key.2)) Msq :=
        Int.fmod_nonneg' _ Msq_pos
      have hxm : Int.fmod (inv * (digraphVal (c1, c2) - key.2)) Msq < Msq :=
        Int.fmod_lt_of_pos _ Msq_pos
      have h961 := Msq_eq
      simp only [List.mem_cons] at hc
      rcases hc with rfl | rfl | hc
      · exact alphabet_getD_mem _ (by rw [alen_eq]; omega)
      · exact alphabet_getD_mem _ (by rw [alen_eq]; omega)
      · exact htalpha _ hc

/-- The modular core of one decryption block: decrypting the encrypted
value of a block recovers the block value. -/
theorem decrypt_block_val (a b inv X : Int) (hinvmul : a * inv ≡ 1 [ZMOD Msq])
    (hX0 : 0 ≤ X) (hXm : X < Msq) :
    Int.fmod (inv * ((a * X + b) % Msq - b)) Msq = X := by
  refine modEq_eq_of_lt ?_ (Int.fmod_nonneg' _ Msq_pos) (Int.fmod_lt_of_pos _ Msq_pos) hX0 hXm
  calc Int.fmod (inv * ((a * X + b) % Msq - b)) Msq
      ≡ inv * ((a * X + b) % Msq - b) [ZMOD Msq] := by
        rw [Int.fmod_eq_emod _ Msq_pos.le]
        exact Int.mod_modEq _ _
    _ ≡ inv * (a * X + b - b) [ZMOD Msq] :=
        Int.ModEq.mul_left inv (Int.ModEq.sub (Int.mod_modEq _ _) (Int.ModEq.refl b))
    _ = a * inv * X := by ring
    _ ≡ 1 * X [ZMOD Msq] := Int.ModEq.mul_right X hinvmul
    _ = X := one_mul X

/-- Decrypting one encrypted block recovers its two symbols. -/
theorem block_roundtrip (a b inv : Int) (hinvmul : a * inv ≡ 1 [ZMOD Msq])
    (c1 c2 : Char) (hc1 : c1 ∈ ALPHABET) (hc2 : c2 ∈ ALPHABET) :
    (ALPHABET.getD
        ((Int.fmod (inv * (digraphVal (encryptBigram (a, b) (c1, c2)) - b)) Msq).toNat / alen) 'а',
      ALPHABET.getD
        ((Int.fmod (inv * (digraphVal (encryptBigram (a, b) (c1, c2)) - b)) Msq).toNat % alen) 'а')
      = (c1, c2) := by
  have hY0 : 0 ≤ (a * digraphVal (c1, c2) + b) % Msq := Int.emod_nonneg _ Msq_pos.ne'
  have hYm : (a * digraphVal (c1, c2) + b) % Msq < Msq := Int.emod_lt_of_pos _ Msq_pos
  have hED : digraphVal (encryptBigram (a, b) (c1, c2)) =
      (a * digraphVal (c1, c2) + b) % Msq := by
    show digraphVal (ALPHABET.getD (((a * digraphVal (c1, c2) + b) % Msq).toNat / alen) 'а',
        ALPHABET.getD (((a * digraphVal (c1, c2) + b) % Msq).toNat % alen) 'а') = _
    exact digraphVal_expand _ hY0 hYm
  rw [hED, decrypt_block_val a b inv (digraphVal (c1, c2)) hinvmul (digraphVal_nonneg _)
    (digraphVal_lt (c1, c2) hc1 hc2)]
  have h := expand_digraphVal (c1, c2) hc1 hc2
  exact Prod.ext h.1 h.2

/-- Round trip: decrypting the encryption of a well-formed even-length
text with the same valid key returns the text. -/
theorem decrypt_encrypt (a b : Int) (hgcd : Int.gcd a Msq = 1) :
    ∀ s, s.length % 2 = 0 → (∀ c ∈ s, c ∈ ALPHABET) →
      decrypt_from_affinity_sub (encrypt_affinity_sub s (a, b)) (a, b) = some s := by
  obtain ⟨inv, hinv⟩ := get_inverse_isSome a Msq Msq_pos hgcd
  obtain ⟨_, _, hinvmul⟩ := get_inverse_some a Msq inv Msq_pos hinv
  intro s
  induction s using twoStepInduction with
  | h0 => intro _ _; rfl
  | h1 c => intro h _; simp at h
  | h2 c1 c2 rest ih =>
    intro hlen halpha
    have hc1 : c1 ∈ ALPHABET := halpha c1 (by simp)
    have hc2 : c2 ∈ ALPHABET := halpha c2 (by simp)
    have hrest := ih (by simp at hlen; omega) (fun c hc => halpha c (by simp [hc]))
    have hpair := block_roundtrip a b inv hinvmul c1 c2 hc1 hc2
    rw [Prod.mk.injEq] at hpair
    show decrypt_from_affinity_sub
        ((encryptBigram (a, b) (c1, c2)).1 :: (encryptBigram (a, b) (c1, c2)).2 ::
          encrypt_affinity_sub rest (a, b)) (a, b) = _
    simp only [decrypt_from_affinity_sub, hinv, hrest, Prod.mk.eta]
    rw [hpair.1, hpair.2]

/-! ## Key derivation: invertibility and completeness -/

/-- `digraphVal` of a spec-modelled encrypted block is the affine image of
the block value, reduced mod `A²`. -/
theorem digraphVal_encryptBigram (key : Int × Int) (g : Char × Char) :
    digraphVal (encryptBigram key g) = (key.1 * digraphVal g + key.2) % Msq := by
  show digraphVal (ALPHABET.getD (((key.1 * digraphVal g + key.2) % Msq).toNat / alen) 'а',
      ALPHABET.getD (((key.1 * digraphVal g + key.2) % Msq).toNat % alen) 'а') = _
  exact digraphVal_expand _ (Int.emod_nonneg _ Msq_pos.ne') (Int.emod_lt_of_pos _ Msq_pos)

/-- Every `a`-value produced by `get_key1` is invertible mod `A²`. -/
theorem get_key1_invertible (x1 x2 y1 y2 : Char × Char) (l : List Int) (a : Int)
    (h : get_key1 x1 x2 y1 y2 = some l) (ha : a ∈ l) :
    Int.gcd a Msq = 1 := by
  simp only [get_key1] at h
  split at h
  · cases h
  · next results heq =>
    simp only [Option.some.injEq] at h
    subst h
    obtain ⟨t, _, hta⟩ := List.mem_filterMap.mp ha
    obtain ⟨_, _, htmul⟩ := get_inverse_some t Msq a Msq_pos hta
    exact gcd_eq_one_of_mul_modEq_one htmul

/-- Completeness of the key derivation: if the two ciphertext digraphs are
the encryptions of the two plaintext digraphs under a valid key `(a, b)`
with `a ∈ [0, A²)`, then `a` is among the candidates `get_key1` returns. -/
theorem get_key1_complete (a b : Int) (ha0 : 0 ≤ a) (ham : a < Msq)
    (hgcd : Int.gcd a Msq = 1) (p1 p2 : Char × Char) :
    ∃ l, get_key1 p1 p2 (encryptBigram (a, b) p1) (encryptBigram (a, b) p2) = some l ∧
      a ∈ l := by
  obtain ⟨v, hv⟩ := get_inverse_isSome a Msq Msq_pos hgcd
  obtain ⟨hv0, hvm, hvmul⟩ := get_inverse_some a Msq v Msq_pos hv
  have hY1 := digraphVal_encryptBigram (a, b) p1
  have hY2 := digraphVal_encryptBigram (a, b) p2
  -- v solves the congruence (Y1 - Y2)·t ≡ (X1 - X2) (mod A²)
  have hcong : (digraphVal (encryptBigram (a, b) p1) - digraphVal (encryptBigram (a, b) p2)) * v
      ≡ digraphVal p1 - digraphVal p2 [ZMOD Msq] := by
    calc (digraphVal (encryptBigram (a, b) p1) - digraphVal (encryptBigram (a, b) p2)) * v
        = ((a * digraphVal p1 + b) % Msq - (a * digraphVal p2 + b) % Msq) * v := by
          rw [hY1, hY2]
      _ ≡ ((a * digraphVal p1 + b) - (a * digraphVal p2 + b)) * v [ZMOD Msq] :=
          Int.ModEq.mul_right v (Int.ModEq.sub (Int.mod_modEq _ _) (Int.mod_modEq _ _))
      _ = (a * v) * (digraphVal p1 - digraphVal p2) := by ring
      _ ≡ 1 * (digraphVal p1 - digraphVal p2) [ZMOD Msq] :=
          Int.ModEq.mul_right _ hvmul
      _ = digraphVal p1 - digraphVal p2 := one_mul _
  -- hence gcd(Y1 - Y2, A²) divides X1 - X2, and the solver succeeds
  have hgd : ((Int.gcd (digraphVal (encryptBigram (a, b) p1) -
      digraphVal (encryptBigram (a, b) p2)) Msq : Int)) ∣
      (digraphVal p1 - digraphVal p2) := by
    obtain ⟨k, hk⟩ := Int.modEq_iff_dvd.mp hcong
    have h1 : (digraphVal p1 - digraphVal p2) =
        (digraphVal (encryptBigram (a, b) p1) - digraphVal (encryptBigram (a, b) p2)) * v
          + Msq * k := by linarith
    rw [h1]
    exact Dvd.dvd.add (Dvd.dvd.mul_right Int.gcd_dvd_left v)
      (Dvd.dvd.mul_right Int.gcd_dvd_right k)
  obtain ⟨l0, hl0, _, _, hl0complete⟩ := solve_spec
    (digraphVal (encryptBigram (a, b) p1) - digraphVal (encryptBigram (a, b) p2))
    (digraphVal p1 - digraphVal p2) Msq Msq_pos hgd
  have hvmem : v ∈ l0 := by
    refine hl0complete v hv0 hvm ?_
    rw [sub_emod_eq_zero_iff]
    exact hcong
  -- and the inverse of v, namely a itself, survives the final filter
  have hvcop : Int.gcd v Msq = 1 := gcd_eq_one_of_mul_modEq_one hvmul
  obtain ⟨w, hw⟩ := get_inverse_isSome v Msq Msq_pos hvcop
  obtain ⟨hw0, hwm, hwmul⟩ := get_inverse_some v Msq w Msq_pos hw
  have hwa : w = a := by
    refine modEq_eq_of_lt ?_ hw0 hwm ha0 ham
    calc w = 1 * w := (one_mul w).symm
      _ ≡ a * v * w [ZMOD Msq] := Int.ModEq.mul_right w hvmul.symm
      _ = a * (v * w) := by ring
      _ ≡ a * 1 [ZMOD Msq] := Int.ModEq.mul_left a hwmul
      _ = a := mul_one a
  refine ⟨l0.filterMap fun i => (get_inverse i Msq).2, ?_, ?_⟩
  · simp only [get_key1]
    rw [hl0]
  · exact List.mem_filterMap.mpr ⟨v, hvmem, hwa ▸ hw⟩

/-! ## Candidate search: invertibility of generated keys and the
first-match characterisation -/

/-- Every key enumerated by `gnc_keys` has an invertible first component. -/
theorem gnc_candidates_invertible (s : List Char) (f_size : Nat) (k : Int × Int)
    (hk : k ∈ gnc_candidates s f_size) : Int.gcd k.1 Msq = 1 := by
  simp only [gnc_candidates] at hk
  obtain ⟨p, _, hk2⟩ := List.mem_flatMap.mp hk
  obtain ⟨j, _, hk3⟩ := List.mem_flatMap.mp hk2
  split at hk3
  · simp at hk3
  · next sols heq =>
    obtain ⟨a2, ha2, rfl⟩ := List.mem_map.mp hk3
    exact get_key1_invertible _ _ _ _ sols a2 heq ha2

theorem gnc_inner_eq (check : List Char → Bool) (s : List Char)
    (x1 c1 : Char × Char) (sols : List Int)
    (hdec : ∀ a ∈ sols, (decrypt_from_affinity_sub s (a, get_key2 x1 c1 a)).isSome) :
    gnc_inner check s x1 c1 sols =
      (sols.map fun a => (a, get_key2 x1 c1 a)).findSome? (gnc_try check s) := by
  induction sols with
  | nil => rfl
  | cons a rest ih =>
    obtain ⟨t, ht⟩ := Option.isSome_iff_exists.mp (hdec a (by simp))
    have hrest := ih fun a2 ha2 => hdec a2 (by simp [ha2])
    simp only [gnc_inner, List.map_cons, List.findSome?_cons, gnc_try, ht]
    by_cases hc : check t
    · simp [hc]
    · simp only [hc, if_neg (by simp [hc] : ¬(check t = true))]
      exact hrest

set_option maxHeartbeats 1000000 in
theorem gnc_middle_eq (check : List Char → Bool) (s : List Char)
    (f_list : List ((Char × Char) × Nat)) (p : (Char × Char) × (Char × Char))
    (js : List Nat)
    (hdec : ∀ k : Int × Int, Int.gcd k.1 Msq = 1 →
      (decrypt_from_affinity_sub s k).isSome) :
    gnc_middle check s f_list p js =
      (js.flatMap fun j =>
        match get_key1 p.1 p.2 (f_list.getD j (('а', 'а'), 0)).1
            (f_list.getD (j + 1) (('а', 'а'), 0)).1 with
        | none => []
        | some sols =>
          sols.map fun a => (a, get_key2 p.1 (f_list.getD j (('а', 'а'), 0)).1 a)).findSome?
        (gnc_try check s) := by
  induction js with
  | nil => rfl
  | cons j rest ih =>
    rw [List.flatMap_cons, List.findSome?_append, ← ih]
    rcases hkey : get_key1 p.1 p.2 (f_list.getD j (('а', 'а'), 0)).1
        (f_list.getD (j + 1) (('а', 'а'), 0)).1 with _ | sols
    · simp only [gnc_middle, hkey, List.findSome?_nil, Option.none_or]
    · have hin := gnc_inner_eq check s p.1 (f_list.getD j (('а', 'а'), 0)).1 sols
        (fun a ha => hdec _ (get_key1_invertible _ _ _ _ sols a hkey ha))
      simp only [gnc_middle, hkey, hin]
      rcases hfind : (sols.map fun a =>
          (a, get_key2 p.1 (f_list.getD j (('а', 'а'), 0)).1 a)).findSome?
          (gnc_try check s) with _ | r
      · simp [Option.none_or]
      · simp [Option.or]

theorem gnc_outer_eq (check : List Char → Bool) (s : List Char)
    (f_list : List ((Char × Char) × Nat))
    (ps : List ((Char × Char) × (Char × Char)))
    (hdec : ∀ k : Int × Int, Int.gcd k.1 Msq = 1 →
      (decrypt_from_affinity_sub s k).isSome) :
    gnc_outer check s f_list ps =
      (ps.flatMap fun p =>
        (List.range (f_list.length - 1)).flatMap fun j =>
          match get_key1 p.1 p.2 (f_list.getD j (('а', 'а'), 0)).1
              (f_list.getD (j + 1) (('а', 'а'), 0)).1 with
          | none => []
          | some sols =>
            sols.map fun a =>
              (a, get_key2 p.1 (f_list.getD j (('а', 'а'), 0)).1 a)).findSome?
        (gnc_try check s) := by
  induction ps with
  | nil => rfl
  | cons p rest ih =>
    rw [List.flatMap_cons, List.findSome?_append, ← ih]
    have hmid := gnc_middle_eq check s f_list p (List.range (f_list.length - 1)) hdec
    simp only [gnc_outer, hmid]
    rcases hfind : ((List.range (f_list.length - 1)).flatMap fun j =>
        match get_key1 p.1 p.2 (f_list.getD j (('а', 'а'), 0)).1
            (f_list.getD (j + 1) (('а', 'а'), 0)).1 with
        | none => []
        | some sols =>
          sols.map fun a =>
            (a, get_key2 p.1 (f_list.getD j (('а', 'а'), 0)).1 a)).findSome?
        (gnc_try check s) with _ | r
    · simp [Option.none_or]
    · simp [Option.or]

/-- The search of `gnc_keys` on well-formed ciphertext is the first
success of `gnc_try` over the flat candidate enumeration, in the fixed
order described by `gnc_candidates`. -/
theorem gnc_keys_findSome (check : List Char → Bool) (s : List Char) (f_size : Nat)
    (heven : s.length % 2 = 0) (halpha : ∀ c ∈ s, c ∈ ALPHABET) :
    gnc_keys check s f_size =
      (gnc_candidates s f_size).findSome? (gnc_try check s) := by
  have hdec : ∀ k : Int × Int, Int.gcd k.1 Msq = 1 →
      (decrypt_from_affinity_sub s k).isSome := by
    intro k hk
    obtain ⟨t, ht, _, _⟩ := decrypt_spec k hk s heven halpha
    simp [ht]
  simp only [gnc_keys, gnc_candidates]
  exact gnc_outer_eq check s _ _ hdec

/-! ## Frequency table: count total, distinct keys, ranking order -/

theorem bumpKey_cons_eq (k : Char × Char) (c : Nat) (tl : List ((Char × Char) × Nat)) :
    bumpKey k ((k, c) :: tl) = (k, c + 1) :: tl := by
  simp [bumpKey]

theorem bumpKey_cons_ne (k k2 : Char × Char) (c : Nat) (tl : List ((Char × Char) × Nat))
    (h : k2 ≠ k) : bumpKey k ((k2, c) :: tl) = (k2, c) :: bumpKey k tl := by
  simp [bumpKey, h]

theorem bumpKey_sum (k : Char × Char) (d : List ((Char × Char) × Nat)) :
    ((bumpKey k d).map (fun x => x.2)).sum = (d.map (fun x => x.2)).sum + 1 := by
  induction d with
  | nil => rfl
  | cons hd tl ih =>
    obtain ⟨k2, c⟩ := hd
    by_cases h : k2 = k
    · simp [bumpKey, h]
      omega
    · simp [bumpKey, h, ih]
      omega

theorem foldl_bump_sum (is : List Nat) (s : List Char) :
    ∀ d : List ((Char × Char) × Nat),
      ((is.foldl (fun d i => bumpKey (s.getD i 'а', s.getD (i + 1) 'а') d) d).map
          (fun x => x.2)).sum =
        (d.map (fun x => x.2)).sum + is.length := by
  induction is with
  | nil => intro d; simp
  | cons i rest ih =>
    intro d
    rw [List.foldl_cons, ih, bumpKey_sum]
    simp only [List.length_cons]
    omega

/-- The counts in the (unsorted) frequency dictionary total the number of
loop iterations. -/
theorem dict_sum (s : List Char) (step : Nat) :
    ((get_bigrams_frequency_dict s step).map (fun x => x.2)).sum =
      (s.length - 1 + step - 1) / step := by
  unfold get_bigrams_frequency_dict bigramIndices
  rw [foldl_bump_sum]
  simp

/-- The counts in the ranked frequency table for `step = 1` total
`len(text) - 1` (natural subtraction). -/
theorem freq_sum (s : List Char) :
    ((get_bigrams_frequency s 1).map (fun x => x.2)).sum = s.length - 1 := by
  unfold get_bigrams_frequency
  have hperm := (List.perm_insertionSort freqGE (get_bigrams_frequency_dict s 1)).map
    (fun x : (Char × Char) × Nat => x.2)
  rw [hperm.sum_eq, dict_sum]
  omega

theorem bumpKey_keys_subset (k : Char × Char) (d : List ((Char × Char) × Nat))
    (x : Char × Char) (hx : x ∈ (bumpKey k d).map (fun y => y.1)) :
    x ∈ d.map (fun y => y.1) ∨ x = k := by
  induction d with
  | nil =>
    simp [bumpKey] at hx
    exact Or.inr hx
  | cons hd tl ih =>
    obtain ⟨k2, c⟩ := hd
    by_cases h : k2 = k
    · subst h
      rw [bumpKey_cons_eq] at hx
      simp only [List.map_cons, List.mem_cons] at hx
      rcases hx with rfl | hx
      · exact Or.inr rfl
      · exact Or.inl (by simp [hx])
    · rw [bumpKey_cons_ne k k2 c tl h] at hx
      simp only [List.map_cons, List.mem_cons] at hx
      rcases hx with rfl | hx
      · exact Or.inl (by simp)
      · rcases ih hx with h2 | h2
        · exact Or.inl (by simp [h2])
        · exact Or.inr h2

theorem bumpKey_nodup (k : Char × Char) (d : List ((Char × Char) × Nat))
    (h : (d.map (fun y => y.1)).Nodup) : ((bumpKey k d).map (fun y => y.1)).Nodup := by
  induction d with
  | nil => simp [bumpKey]
  | cons hd tl ih =>
    obtain ⟨k2, c⟩ := hd
    simp only [List.map_cons, List.nodup_cons] at h
    by_cases hk : k2 = k
    · subst hk
      rw [bumpKey_cons_eq]
      simp only [List.map_cons, List.nodup_cons]
      exact h
    · rw [bumpKey_cons_ne k k2 c tl hk]
      simp only [List.map_cons, List.nodup_cons]
      refine ⟨?_, ih h.2⟩
      intro hmem
      rcases bumpKey_keys_subset k tl k2 hmem with h2 | h2
      · exact h.1 h2
      · exact hk h2

/-- The frequency dictionary has pairwise-distinct digraph keys. -/
theorem dict_nodup_keys (s : List Char) (step : Nat) :
    ((get_bigrams_frequency_dict s step).map (fun y => y.1)).Nodup := by
  unfold get_bigrams_frequency_dict
  generalize bigramIndices s step = is
  have h : ∀ d : List ((Char × Char) × Nat), (d.map (fun y => y.1)).Nodup →
      ((is.foldl (fun d i => bumpKey (s.getD i 'а', s.getD (i + 1) 'а') d) d).map
        (fun y => y.1)).Nodup := by
    induction is with
    | nil => intro d hd; simpa using hd
    | cons i rest ih =>
      intro d hd
      rw [List.foldl_cons]
      exact ih _ (bumpKey_nodup _ d hd)
  exact h [] (by simp)

/-- The ranked frequency table is sorted strictly by count descending,
with ties broken by digraph key descending. -/
theorem freq_sorted_desc (s : List Char) (step : Nat) :
    (get_bigrams_frequency s step).Pairwise freqOrderDesc := by
  have hsorted : (get_bigrams_frequency s step).Pairwise freqGE :=
    List.sorted_insertionSort freqGE (get_bigrams_frequency_dict s step)
  have hnodup : ((get_bigrams_frequency s step).map (fun y => y.1)).Nodup := by
    have hperm := (List.perm_insertionSort freqGE (get_bigrams_frequency_dict s step)).map
      (fun y : (Char × Char) × Nat => y.1)
    exact hperm.symm.nodup (dict_nodup_keys s step)
  have hne : (get_bigrams_frequency s step).Pairwise (fun x y => x.1 ≠ y.1) :=
    (List.pairwise_map.mp hnodup)
  refine (hsorted.and hne).imp ?_
  rintro x y ⟨hge, hkeys⟩
  rcases hge with h | ⟨he, h⟩
  · exact Or.inl h
  · rcases h with h | h
    · exact Or.inr ⟨he, h⟩
    · exact absurd h.symm hkeys

/-! ## The claims -/

/-- Claim C1: for every key `(a, b)` with `gcd(a, A²) = 1` and every text
of even length whose symbols are all in `ALPHABET`, decrypting the
(spec-modelled) encryption of the text under that key with
`decrypt_from_affinity_sub` returns the original text. -/
theorem C1_decrypt_encrypt_roundtrip (a b : Int) (hgcd : Int.gcd a Msq = 1)
    (t : List Char) (heven : t.length % 2 = 0) (halpha : ∀ c ∈ t, c ∈ ALPHABET) :
    decrypt_from_affinity_sub (encrypt_affinity_sub t (a, b)) (a, b) = some t :=
  decrypt_encrypt a b hgcd t heven halpha

/-- Witness for C1 at key `(7, 3)` and the text `"аб"`. -/
theorem C1_decrypt_encrypt_roundtrip_witness :
    decrypt_from_affinity_sub (encrypt_affinity_sub ('а' :: 'б' :: []) (7, 3)) (7, 3) =
      some ('а' :: 'б' :: []) :=
  C1_decrypt_encrypt_roundtrip 7 3 (by decide) ('а' :: 'б' :: []) (by decide) (by decide)

/-- Claim C2: for every key `(a, b)` with `a` in `[0, A²)` and
`gcd(a, A²) = 1` and every two plaintext digraphs over the alphabet, if the
two ciphertext digraphs are the encryptions of the plaintext digraphs under
`(a, b)`, then `a` appears among the values returned by `get_key1` on those
plaintext/ciphertext digraph pairs. -/
theorem C2_get_key1_returns_true_key (a b : Int) (ha0 : 0 ≤ a) (ham : a < Msq)
    (hgcd : Int.gcd a Msq = 1) (p1 p2 : Char × Char)
    (_h11 : p1.1 ∈ ALPHABET) (_h12 : p1.2 ∈ ALPHABET)
    (_h21 : p2.1 ∈ ALPHABET) (_h22 : p2.2 ∈ ALPHABET) :
    ∃ l, get_key1 p1 p2 (encryptBigram (a, b) p1) (encryptBigram (a, b) p2) = some l ∧
      a ∈ l :=
  get_key1_complete a b ha0 ham hgcd p1 p2

/-- Witness for C2 at key `(7, 3)` and plaintext digraphs `"ст"`, `"но"`. -/
theorem C2_get_key1_returns_true_key_witness :
    ∃ l, get_key1 ('с', 'т') ('н', 'о') (encryptBigram (7, 3) ('с', 'т'))
      (encryptBigram (7, 3) ('н', 'о')) = some l ∧ (7 : Int) ∈ l :=
  C2_get_key1_returns_true_key 7 3 (by decide) (by decide) (by decide)
    ('с', 'т') ('н', 'о') (by decide) (by decide) (by decide) (by decide)

/-- Claim C3, the failing input `(a, b, m) = (2, 0, 2⁵⁴ + 2)`: under the
exact-division semantics the specification's design notes require — the
semantics this embedding implements — the solver returns
`[0, 2⁵³ + 1]`, and `2⁵³ + 1` solves `2·x ≡ 0 (mod 2⁵⁴ + 2)`.  The source
instead computes `m / d` with float division, rounding the quotient
`2⁵³ + 1` to `2⁵³ = 9007199254740992`, and returns
`[0, 9007199254740992]`, whose second element does *not* solve the
congruence (third conjunct) — so the claim, though stated as the code's
contract, is violated by the code's float arithmetic. -/
theorem C3_float_rounding_failing_input :
    solve_linear_comparison 2 0 (2 ^ 54 + 2) = some [0, 9007199254740993] ∧
      (2 * 9007199254740993 - 0) % (2 ^ 54 + 2) = 0 ∧
      (2 * 9007199254740992 - 0) % (2 ^ 54 + 2) ≠ 0 := by
  decide

/-- Claim C4, counterexample: on the text `"аба"` the two digraphs tie in
count, and the ranked output is *descending* by digraph key, not ascending
as claimed (`sorted(..., key=(count, key), reverse=True)` reverses the key
order of ties as well). -/
theorem C4_counterexample :
    ¬ (get_bigrams_frequency ('а' :: 'б' :: 'а' :: []) 1).Pairwise freqOrderSpec := by
  decide

/-- Claim C4, amended: for every text and positive step, the ranked output
of `get_bigrams_frequency` is sorted descending by count, and entries with
equal counts are sorted *descending* by digraph key. -/
theorem C4_rank_order (s : List Char) (step : Nat) (_hstep : 0 < step) :
    (get_bigrams_frequency s step).Pairwise freqOrderDesc :=
  freq_sorted_desc s step

/-- Witness for the amended C4 on the text `"аба"`. -/
theorem C4_rank_order_witness :
    (get_bigrams_frequency ('а' :: 'б' :: 'а' :: []) 1).Pairwise freqOrderDesc :=
  C4_rank_order ('а' :: 'б' :: 'а' :: []) 1 (by decide)

/-- Claim C5: every key enumerated by the search (`gnc_candidates`, the
keys `gnc_keys` constructs from `get_key1`/`get_key2`) has an invertible
first component, so the modular-inverse lookup of
`decrypt_from_affinity_sub` succeeds and its failure branch is unreachable
for search-produced keys on well-formed ciphertext. -/
theorem C5_search_keys_invertible (s : List Char) (f_size : Nat) (k : Int × Int)
    (hk : k ∈ gnc_candidates s f_size) (t : List Char)
    (ht2 : t.length % 2 = 0) (hta : ∀ c ∈ t, c ∈ ALPHABET) :
    (get_inverse k.1 Msq).2.isSome ∧ (decrypt_from_affinity_sub t k).isSome := by
  have hg := gnc_candidates_invertible s f_size k hk
  obtain ⟨v, hv⟩ := get_inverse_isSome k.1 Msq Msq_pos hg
  refine ⟨by simp [hv], ?_⟩
  obtain ⟨d, hd, _, _⟩ := decrypt_spec k hg t ht2 hta
  simp [hd]

/-- Witness for C5: the first candidate generated on ciphertext `"стст"`. -/
theorem C5_search_keys_invertible_witness :
    (get_inverse (225 : Int) Msq).2.isSome ∧
      (decrypt_from_affinity_sub ('с' :: 'т' :: 'с' :: 'т' :: [])
        ((225 : Int), (928 : Int))).isSome :=
  C5_search_keys_invertible ('с' :: 'т' :: 'с' :: 'т' :: []) 5 (225, 928)
    (by decide) ('с' :: 'т' :: 'с' :: 'т' :: []) (by decide) (by decide)

/-- Claim C6: on well-formed ciphertext, `gnc_keys` (with
`check_bw=False`) equals the first success of `gnc_try` over the flat
candidate list `gnc_candidates`, whose order is exactly the claimed one —
reference-digraph permutations outermost, adjacent frequency-pair indices
next, congruence-solver candidates innermost; being a pure function of the
ciphertext and configuration, the accepted key is identical on every
run. -/
theorem C6_first_match_search (check : List Char → Bool) (s : List Char) (f_size : Nat)
    (heven : s.length % 2 = 0) (halpha : ∀ c ∈ s, c ∈ ALPHABET) :
    gnc_keys check s f_size = (gnc_candidates s f_size).findSome? (gnc_try check s) :=
  gnc_keys_findSome check s f_size heven halpha

/-- Witness for C6 on ciphertext `"стст"` with the always-true check. -/
theorem C6_first_match_search_witness :
    gnc_keys (fun _ => true) ('с' :: 'т' :: 'с' :: 'т' :: []) 5 =
      (gnc_candidates ('с' :: 'т' :: 'с' :: 'т' :: []) 5).findSome?
        (gnc_try (fun _ => true) ('с' :: 'т' :: 'с' :: 'т' :: [])) :=
  C6_first_match_search (fun _ => true) ('с' :: 'т' :: 'с' :: 'т' :: []) 5
    (by decide) (by decide)

set_option maxRecDepth 4000 in
/-- Claim C7, the failing input `(a, b, m) = (0, 0, 961)`: in the
degenerate case `a ≡ 0 (mod m)` with `b ≡ 0 (mod m)` the code does *not*
special-case `d = m` as the specification requires — the reduced modulus
collapses to `1` and all `961` residues are returned, among them `1`,
which passes the invertibility filter `get_key1` applies: usable
candidates are handed to the search, not "no usable candidate". -/
theorem C7_degenerate_at_failing_input :
    solve_linear_comparison 0 0 961 ≠ none ∧
      ((solve_linear_comparison 0 0 961).getD []).length = 961 ∧
      (1 : Int) ∈ (solve_linear_comparison 0 0 961).getD [] ∧
      (get_inverse 1 961).2.isSome := by
  decide

/-- Claim C9, counterexample: on the empty text the counts sum to `0`,
but `len(text) - 1 = -1`. -/
theorem C9_counterexample :
    ¬ ((((((get_bigrams_frequency ([] : List Char) 1).map fun x => x.2).sum : Nat) : Int)) =
      (([] : List Char).length : Int) - 1) := by
  decide

/-- Claim C9, amended: for every *nonempty* text, the counts produced by
`get_bigrams_frequency` with `step = 1` total `len(text) - 1`. -/
theorem C9_count_total (s : List Char) (hs : s ≠ []) :
    (((((get_bigrams_frequency s 1).map fun x => x.2).sum : Nat) : Int)) =
      (s.length : Int) - 1 := by
  have h := freq_sum s
  have hlen : 0 < s.length := List.length_pos.mpr hs
  rw [h]
  omega

/-- Witness for the amended C9 on the text `"аба"`. -/
theorem C9_count_total_witness :
    (((((get_bigrams_frequency ('а' :: 'б' :: 'а' :: []) 1).map fun x => x.2).sum : Nat) : Int)) =
      ((('а' :: 'б' :: 'а' :: []) : List Char).length : Int) - 1 :=
  C9_count_total ('а' :: 'б' :: 'а' :: []) (by decide)

/-- Claim C10: for every even-length input over the alphabet and every key
with invertible first component, decryption succeeds with a text of the
same length whose symbols all lie in the alphabet. -/
theorem C10_decrypt_preserves_shape (s : List Char) (heven : s.length % 2 = 0)
    (halpha : ∀ c ∈ s, c ∈ ALPHABET) (a b : Int) (hgcd : Int.gcd a Msq = 1) :
    ∃ t, decrypt_from_affinity_sub s (a, b) = some t ∧ t.length = s.length ∧
      ∀ c ∈ t, c ∈ ALPHABET :=
  decrypt_spec (a, b) hgcd s heven halpha

/-- Witness for C10 on `"аб"` with key `(7, 3)`. -/
theorem C10_decrypt_preserves_shape_witness :
    ∃ t, decrypt_from_affinity_sub ('а' :: 'б' :: []) (7, 3) = some t ∧
      t.length = ('а' :: 'б' :: []).length ∧ ∀ c ∈ t, c ∈ ALPHABET :=
  C10_decrypt_preserves_shape ('а' :: 'б' :: []) (by decide) (by decide) 7 3 (by decide)

end AffineBS
